import Mathlib

/-
Shallow embedding of the reconciliation engine of the `vercel-env` tool
(src/actions/sync.ts, src/index.ts, src/constants/index.ts).

Strings are modelled as lists of characters (`Str`); a JS object mapping
keys to string values (`EnvVars = Record<string, string>`) is modelled as
an association list in insertion order with unique keys, with JS property
assignment (`assign`) and deletion (`removeKey`).

External effects are made explicit: shell command outcomes (`run` returning
a result or `null`) become boolean oracles, file contents become values,
and `console` output is not modelled (it does not affect control flow).
-/

abbrev Str := List Char

def str (s : String) : Str := s.toList

/- Whitespace predicate used by `trim` (JS `String.prototype.trim`
restricted to the ASCII whitespace the repository's data contains). -/
def isWS (c : Char) : Bool :=
  c = ' ' ∨ c = '\t' ∨ c = '\n' ∨ c = '\r'

/- JS `s.trim()`: drop leading and trailing whitespace. -/
def trim (s : Str) : Str :=
  ((s.dropWhile isWS).reverse.dropWhile isWS).reverse

/- JS `s.split(sep)` for a single-character separator. -/
def splitOnChar (sep : Char) : Str → List Str
  | [] => [[]]
  | c :: cs =>
    match splitOnChar sep cs with
    | [] => [[c]]
    | r :: rs => if c = sep then [] :: r :: rs else (c :: r) :: rs

/- JS `parts.join(sep)` for a single-character separator. -/
def joinWith (sep : Char) : List Str → Str
  | [] => []
  | l :: ls =>
    match ls with
    | [] => l
    | _ :: _ => l ++ sep :: joinWith sep ls

/- JS `s.startsWith(p)`. -/
def startsWith : Str → Str → Bool
  | _, [] => true
  | [], _ :: _ => false
  | c :: cs, p :: ps => c = p ∧ startsWith cs ps

/- JS `s.includes(p)`: some suffix of `s` starts with `p`. -/
def hasSub : Str → Str → Bool
  | s, p => startsWith s p ||
    match s with
    | [] => false
    | _ :: cs => hasSub cs p

/- JS `value.replace(/^"|"$/g, "")`: drop one leading and one trailing
double quote when present. -/
def stripQuotes (s : Str) : Str :=
  let s1 := if s.head? = some '"' then s.tail else s
  if s1.getLast? = some '"' then s1.dropLast else s1

/- `EnvVars = Record<string, string>`: association list in insertion
order. -/
abbrev EnvVars := List (Str × Str)

/- JS property read `m[k]` (first matching key; JS objects have unique
keys). -/
def lookupVar : EnvVars → Str → Option Str
  | [], _ => none
  | p :: ps, k => if p.1 = k then some p.2 else lookupVar ps k

/- JS property assignment `m[k] = v`: overwrite in place when the key
exists, otherwise append. -/
def assign (m : EnvVars) (k v : Str) : EnvVars :=
  if m.any (fun p => p.1 = k) then
    m.map (fun p => if p.1 = k then (k, v) else p)
  else
    m ++ [(k, v)]

/- JS `delete m[k]`. -/
def removeKey (m : EnvVars) (k : Str) : EnvVars :=
  m.filter (fun p => ¬ (p.1 = k))

/- JS truthiness of `string | undefined`: `undefined` and `""` are falsy. -/
def truthy : Option Str → Bool
  | none => false
  | some [] => false
  | some (_ :: _) => true

/- sync.ts `parseEnvFile`: split on newlines; skip blank and `#` lines;
split each line at `=`; the value is the rest re-joined, trimmed, with one
surrounding quote pair removed; assign when the key is non-empty. -/
def processEnvLine (acc : EnvVars) (line : Str) : EnvVars :=
  let trimmed := trim line
  if trimmed = [] ∨ trimmed.head? = some '#' then acc
  else
    match splitOnChar '=' trimmed with
    | [] => acc
    | key :: rest =>
      let value := stripQuotes (trim (joinWith '=' rest))
      if key = [] then acc else assign acc key value

def parseEnvFile (content : Str) : EnvVars :=
  (splitOnChar '\n' content).foldl processEnvLine []

/- sync.ts `writeEnvFile`: one `KEY="value"` line per entry, joined by
newlines, with a trailing newline.  Only the produced content matters for
the claims, so the file-system write is elided. -/
def envLine (p : Str × Str) : Str :=
  p.1 ++ '=' :: '"' :: p.2 ++ ['"']

def writeEnvContent (m : EnvVars) : Str :=
  joinWith '\n' (m.map envLine) ++ ['\n']

/- constants/index.ts -/

inductive Environment
  | development
  | production
deriving DecidableEq, Repr

def EXCLUDED_FROM_PULL_all : List Str :=
  [str "VERCEL_OIDC_TOKEN", str "VERCEL_URL", str "VERCEL_ENV", str "VERCEL_REGION"]

def EXCLUDED_FROM_PULL_env : Environment → List Str
  | .development => []
  | .production =>
    [str "NX_DAEMON", str "TURBO_CACHE", str "TURBO_DOWNLOAD_LOCAL_ENABLED",
     str "TURBO_REMOTE_ONLY", str "TURBO_RUN_SUMMARY", str "VERCEL",
     str "VERCEL_TARGET_ENV"]

/- sync.ts `isExcludedFromPull`. -/
def isExcludedFromPull (key : Str) (environment : Environment) : Bool :=
  decide (key ∈ EXCLUDED_FROM_PULL_all ∨ key ∈ EXCLUDED_FROM_PULL_env environment)

/- types/index.ts -/

inductive SyncAction
  | add
  | update
  | delete
  | pull
  | remove_from_vercel
  | remove_from_local
deriving DecidableEq, Repr

structure EnvDiff where
  action : SyncAction
  key : Str
  localValue : Option Str := none
  vercelValue : Option Str := none
  environment : Environment
deriving DecidableEq, Repr

/- The sentinel value marking a remote value whose content could not be
fetched. -/
def ENCRYPTED : Str := str "[ENCRYPTED]"

/- sync.ts `calculateDiffs`, split into the per-key loop body
(`diffsForKey`) and the iteration over the union of key sets.
`new Set([...keys(local), ...keys(vercel)])` keeps the first occurrence of
each key in insertion order. -/
def jsSetList (ks : List Str) : List Str :=
  ks.foldl (fun acc k => if k ∈ acc then acc else acc ++ [k]) []

def allKeysOf (localVars vercelVars : EnvVars) : List Str :=
  jsSetList (localVars.map Prod.fst ++ vercelVars.map Prod.fst)

def diffsForKey (localVars vercelVars : EnvVars) (environment : Environment)
    (key : Str) : List EnvDiff :=
  let localValue := lookupVar localVars key
  let vercelValue := lookupVar vercelVars key
  let hasLocal := truthy localValue
  let hasVercel := truthy vercelValue
  if hasLocal ∧ ¬ hasVercel then
    [{ action := .add, key := key, localValue := localValue, environment := environment },
     { action := .remove_from_local, key := key, localValue := localValue,
       environment := environment }]
  else if ¬ hasLocal ∧ hasVercel then
    if ¬ isExcludedFromPull key environment then
      [{ action := .pull, key := key, vercelValue := vercelValue, environment := environment },
       { action := .remove_from_vercel, key := key, vercelValue := vercelValue,
         environment := environment }]
    else []
  else if hasLocal ∧ hasVercel then
    if vercelValue = some ENCRYPTED then
      [{ action := .update, key := key, localValue := localValue,
         vercelValue := vercelValue, environment := environment }]
    else if localValue ≠ vercelValue then
      [{ action := .update, key := key, localValue := localValue,
         vercelValue := vercelValue, environment := environment }]
    else []
  else []

def calculateDiffs (localVars vercelVars : EnvVars)
    (environment : Environment) : List EnvDiff :=
  (allKeysOf localVars vercelVars).flatMap (diffsForKey localVars vercelVars environment)

/- sync.ts `getVercelEnvVars`.  External effects are explicit:
`pullOk` is whether `vercel env pull` exited successfully, `tempFileContent`
is the pulled file's content when the file exists, `listOutput` is the
output of `vercel env ls` when that command succeeds. -/
structure RemoteFetchWorld where
  pullOk : Bool
  tempFileContent : Option Str
  listOutput : Option Str

/- The line filter of the names-only fallback: skip blank lines, CLI
banners, headers and progress lines. -/
def keepListLine (trimmed : Str) : Bool :=
  trimmed ≠ [] &&
  !startsWith trimmed (str "Vercel CLI") &&
  !startsWith trimmed (str ">") &&
  !startsWith trimmed (str "name") &&
  !startsWith trimmed (str "Common next commands") &&
  !startsWith trimmed (str "-") &&
  !hasSub trimmed (str "Environment Variables found") &&
  !hasSub trimmed (str "Retrieving project") &&
  !hasSub trimmed (str "Saving")

/- JS `varName.match(/^[A-Z_][A-Z0-9_]*$/i)`: ASCII letter or underscore,
then ASCII alphanumerics or underscores. -/
def isValidEnvName : Str → Bool
  | [] => false
  | c :: cs => (c.isAlpha || c = '_') && cs.all (fun d => d.isAlphanum || d = '_')

/- The name filter applied to the first whitespace-separated token of a
kept line. -/
def keepVarName (varName : Str) : Bool :=
  varName ≠ [] &&
  varName ≠ str "name" &&
  !startsWith varName (str "`") &&
  !startsWith varName (str "vercel") &&
  isValidEnvName varName

/- The names-only fallback loop: for each line of the list output, trim it,
apply the line filter, take `parts[0]` of `trimmed.split(/\s+/)` (the first
whitespace-delimited token) and keep it when it passes the name filter. -/
def extractVarNames (listResult : Str) : List Str :=
  (splitOnChar '\n' listResult).foldl
    (fun acc line =>
      let trimmed := trim line
      if keepListLine trimmed then
        let varName := trimmed.takeWhile (fun c => ! isWS c)
        if keepVarName varName then acc ++ [varName] else acc
      else acc)
    []

def getVercelEnvVars (w : RemoteFetchWorld) : EnvVars :=
  match w.pullOk, w.tempFileContent with
  | true, some tempContent => parseEnvFile tempContent
  | _, _ =>
    match w.listOutput with
    | some listResult =>
      (extractVarNames listResult).foldl (fun acc n => assign acc n ENCRYPTED) []
    | none => []

/- sync.ts `applyDiff`.  The oracle `cmdOutcomes i` is the success of the
i-th `vercel env add` / `vercel env rm` command issued inside the call
(`run` returning a string maps to `true`, `run` returning `null` to
`false`).  `pullContent` plays the role of `RemoteFetchWorld` for the
encrypted-value pull fallback, `localVars` is the mapping produced by
`getLocalEnvVars` at the moment the local file is read. -/
inductive Mode
  | interactive
  | auto
deriving DecidableEq, Repr

inductive RemoteOp
  | add (key value : Str)
  | rm (key : Str)
deriving DecidableEq, Repr

structure ApplyWorld where
  cmdOutcomes : Nat → Bool
  pullContent : Option Str
  localVars : EnvVars

structure ApplyResult where
  success : Bool
  remoteOps : List RemoteOp
  writtenLocal : Option EnvVars
deriving DecidableEq, Repr

def skipResult : ApplyResult := { success := false, remoteOps := [], writtenLocal := none }

/- `confirms` is the stream of the operator's answers to the successive
per-record confirmation prompts; the code consults only the first one. -/
def applyDiff (diff : EnvDiff) (mode : Mode) (confirms : List Bool)
    (w : ApplyWorld) : ApplyResult :=
  if mode = .interactive ∧ ¬ (confirms.head?.getD false) then
    skipResult
  else
    match diff.action with
    | .add =>
      match diff.localValue with
      | some v =>
        if v ≠ [] then
          if w.cmdOutcomes 0 then
            { success := true, remoteOps := [.add diff.key v], writtenLocal := none }
          else if w.cmdOutcomes 1 then
            if w.cmdOutcomes 2 then
              { success := true,
                remoteOps := [.add diff.key v, .rm diff.key, .add diff.key v],
                writtenLocal := none }
            else
              { success := false,
                remoteOps := [.add diff.key v, .rm diff.key, .add diff.key v],
                writtenLocal := none }
          else
            { success := false, remoteOps := [.add diff.key v, .rm diff.key],
              writtenLocal := none }
        else skipResult
      | none => skipResult
    | .pull =>
      match diff.vercelValue with
      | some v =>
        if v ≠ [] ∧ v ≠ ENCRYPTED then
          { success := true, remoteOps := [],
            writtenLocal := some (assign w.localVars diff.key v) }
        else if v = ENCRYPTED then
          match w.pullContent with
          | some tempContent =>
            let tempVars := parseEnvFile tempContent
            match lookupVar tempVars diff.key with
            | some tv =>
              if tv ≠ [] then
                { success := true, remoteOps := [],
                  writtenLocal := some (assign w.localVars diff.key tv) }
              else skipResult
            | none => skipResult
          | none => skipResult
        else skipResult
      | none => skipResult
    | .remove_from_vercel =>
      { success := w.cmdOutcomes 0, remoteOps := [.rm diff.key], writtenLocal := none }
    | .remove_from_local =>
      { success := true, remoteOps := [],
        writtenLocal := some (removeKey w.localVars diff.key) }
    | .update =>
      match diff.localValue with
      | some v =>
        if v ≠ [] then
          if w.cmdOutcomes 0 then
            if w.cmdOutcomes 1 then
              { success := true, remoteOps := [.rm diff.key, .add diff.key v],
                writtenLocal := none }
            else
              { success := false, remoteOps := [.rm diff.key, .add diff.key v],
                writtenLocal := none }
          else
            { success := false, remoteOps := [.rm diff.key], writtenLocal := none }
        else skipResult
      | none => skipResult
    | .delete => skipResult

/- sync.ts `syncEnvironment`, auto-mode selection (lines 697-705): one
confirmation for the whole environment; declining selects nothing, agreeing
selects every computed diff (no filtering of removal-type records). -/
def autoSelectDiffs (diffs : List EnvDiff) (proceedAll : Bool) : List EnvDiff :=
  if proceedAll then diffs else []

/- index.ts `deleteEnvs`, selection/confirmation loop (the `while` loop of
steps 3-4).  Operator input is modelled as a script of rounds; each round
carries the outcome of `selectVariablesToDelete` and, when variables were
chosen, the outcome of `confirmDeletion`. -/

/- Outcome of one `selectVariablesToDelete` call: `cancelled` is an
interrupt (`isCancel`), `exitChoice` is the explicit abort sentinel
(`__exit__`, also returned as `null`), `noneSelected` is an empty
selection, `chosen` is a non-empty selection. -/
inductive SelectOutcome
  | cancelled
  | exitChoice
  | noneSelected
  | chosen (vars : List Str)
deriving DecidableEq, Repr

/- Outcome of one `confirmDeletion` call: `cancelled` is an interrupt at
either prompt, `declined` is an explicit "No", `confirmed dl` is "Yes" with
the answer to the cascade-into-local-files question. -/
inductive ConfirmOutcome
  | cancelled
  | declined
  | confirmed (deleteLocal : Bool)
deriving DecidableEq, Repr

structure DelRound where
  sel : SelectOutcome
  conf : ConfirmOutcome
deriving DecidableEq, Repr

inductive DeleteOutcome
  | cancelled
  | proceed (vars : List Str) (deleteLocal : Bool)
deriving DecidableEq, Repr

/- The loop body: `null` from selection (cancel or the `__exit__`
sentinel) sets `shouldExit`; an empty selection warns and re-loops; a
non-empty selection goes to `confirmDeletion` (unless `force`), whose
`null` sets `shouldExit`, whose "No" clears the selection and re-loops, and
whose "Yes" breaks out to the deletion phase.  `none` means the script
ended while the loop was still awaiting input. -/
def deleteEnvsLoop (force : Bool) : List DelRound → Option DeleteOutcome
  | [] => none
  | r :: rest =>
    match r.sel with
    | .cancelled => some .cancelled
    | .exitChoice => some .cancelled
    | .noneSelected => deleteEnvsLoop force rest
    | .chosen vars =>
      if force then some (.proceed vars false)
      else
        match r.conf with
        | .cancelled => some .cancelled
        | .declined => deleteEnvsLoop force rest
        | .confirmed dl => some (.proceed vars dl)

/- The candidate-action table of spec section 4.2, written from the spec's
words, to be compared with `calculateDiffs` (refinement).  A value counts
as "present" only if non-empty; the rows are: present/absent, absent/
present (split on exclusion), present/present (opaque remote, then
equal-known, then unequal). -/
def presentNonEmpty : Option Str → Bool
  | none => false
  | some [] => false
  | some (_ :: _) => true

def specCandidateActions (environment : Environment) (key : Str)
    (localVal remoteVal : Option Str) : List EnvDiff :=
  if presentNonEmpty localVal ∧ ¬ presentNonEmpty remoteVal then
    [{ action := .add, key := key, localValue := localVal, environment := environment },
     { action := .remove_from_local, key := key, localValue := localVal,
       environment := environment }]
  else if ¬ presentNonEmpty localVal ∧ presentNonEmpty remoteVal then
    if isExcludedFromPull key environment then []
    else
      [{ action := .pull, key := key, vercelValue := remoteVal, environment := environment },
       { action := .remove_from_vercel, key := key, vercelValue := remoteVal,
         environment := environment }]
  else if presentNonEmpty localVal ∧ presentNonEmpty remoteVal then
    if remoteVal = some ENCRYPTED then
      [{ action := .update, key := key, localValue := localVal,
         vercelValue := remoteVal, environment := environment }]
    else if localVal = remoteVal then []
    else
      [{ action := .update, key := key, localValue := localVal,
         vercelValue := remoteVal, environment := environment }]
  else []



/- Lemmas about the JS-object operations. -/

theorem lookupVar_map_overwrite_self (m : EnvVars) (k v : Str)
    (h : m.any (fun p => p.1 = k) = true) :
    lookupVar (m.map (fun p => if p.1 = k then (k, v) else p)) k = some v := by
  induction m with
  | nil => simp at h
  | cons p ps ih =>
    by_cases hp : p.1 = k
    · simp [lookupVar, hp]
    · simp only [List.any_cons, Bool.or_eq_true, decide_eq_true_eq] at h
      rcases h with h | h
    
      · exact absurd h hp
      · simp [lookupVar, hp, ih (by simpa using h)]

theorem lookupVar_append_single_self (m : EnvVars) (k v : Str)
    (h : m.any (fun p => p.1 = k) = false) :
    lookupVar (m ++ [(k, v)]) k = some v := by
  induction m with
  | nil => simp [lookupVar]
  | cons p ps ih =>
    simp only [List.any_cons, Bool.or_eq_false_iff, decide_eq_false_iff_not] at h
    simp [lookupVar, h.1, ih h.2]

theorem lookupVar_assign_self (m : EnvVars) (k v : Str) :
    lookupVar (assign m k v) k = some v := by
  unfold assign
  split_ifs with h
  · exact lookupVar_map_overwrite_self m k v h
  · exact lookupVar_append_single_self m k v (Bool.eq_false_iff.mpr h)

theorem lookupVar_map_overwrite_ne (m : EnvVars) (k v k' : Str) (hk : k' ≠ k) :
    lookupVar (m.map (fun p => if p.1 = k then (k, v) else p)) k' = lookupVar m k' := by
  induction m with
  | nil => rfl
  | cons p ps ih =>
    by_cases hp : p.1 = k
    · have h1 : k ≠ k' := fun hkk => hk hkk.symm
      have h2 : ¬ (p.1 = k') := by rw [hp]; exact h1
      simp [lookupVar, hp, h1, h2, ih]
    · simp [lookupVar, hp, ih]

theorem lookupVar_append_single_ne (m : EnvVars) (k v k' : Str) (hk : k' ≠ k) :
    lookupVar (m ++ [(k, v)]) k' = lookupVar m k' := by
  induction m with
  | nil =>
    have hne : ¬ (k = k') := fun h => hk h.symm
    simp [lookupVar, hne]
  | cons p ps ih =>
    by_cases hp : p.1 = k'
    · simp [lookupVar, hp]
    · simp [lookupVar, hp, ih]

theorem lookupVar_assign_ne (m : EnvVars) (k v k' : Str) (hk : k' ≠ k) :
    lookupVar (assign m k v) k' = lookupVar m k' := by
  unfold assign
  split_ifs with h
  · exact lookupVar_map_overwrite_ne m k v k' hk
  · exact lookupVar_append_single_ne m k v k' hk

theorem lookupVar_removeKey_self (m : EnvVars) (k : Str) :
    lookupVar (removeKey m k) k = none := by
  induction m with
  | nil => rfl
  | cons p ps ih =>
    by_cases hp : p.1 = k
    · simpa [removeKey, hp] using ih
    · simpa [removeKey, lookupVar, hp] using ih

theorem lookupVar_removeKey_ne (m : EnvVars) (k k' : Str) (hk : k' ≠ k) :
    lookupVar (removeKey m k) k' = lookupVar m k' := by
  induction m with
  | nil => rfl
  | cons p ps ih =>
    by_cases hp : p.1 = k
    · have h2 : ¬ (k = k') := fun hkk => hk hkk.symm
      simpa [removeKey, lookupVar, hp, h2] using ih
    · rw [removeKey, List.filter_cons_of_pos (by simp [hp])]
      by_cases hpk : p.1 = k'
      · simp [lookupVar, hpk]
      · simp only [lookupVar, if_neg hpk]
        exact ih

theorem assign_of_fresh (m : EnvVars) (k v : Str)
    (h : m.any (fun p => p.1 = k) = false) :
    assign m k v = m ++ [(k, v)] := by
  unfold assign
  rw [if_neg (by simp [h])]

/- Lemmas about the line-level string operations. -/

theorem splitOnChar_ne_nil (sep : Char) (s : Str) : splitOnChar sep s ≠ [] := by
  cases s with
  | nil => simp [splitOnChar]
  | cons c cs =>
    unfold splitOnChar
    cases h : splitOnChar sep cs with
    | nil => simp
    | cons r rs =>
      by_cases hc : c = sep <;> simp [hc]

theorem splitOnChar_of_not_mem (sep : Char) (s : Str) (h : sep ∉ s) :
    splitOnChar sep s = [s] := by
  induction s with
  | nil => rfl
  | cons c cs ih =>
    have hc : ¬ (c = sep) := fun hcc => h (hcc ▸ List.mem_cons_self c cs)
    have hcs : sep ∉ cs := fun hm => h (List.mem_cons_of_mem c hm)
    unfold splitOnChar
    rw [ih hcs]
    simp [hc]

theorem splitOnChar_append_cons (sep : Char) (l rest : Str) (h : sep ∉ l) :
    splitOnChar sep (l ++ sep :: rest) = l :: splitOnChar sep rest := by
  induction l with
  | nil =>
    cases hr : splitOnChar sep rest with
    | nil => exact absurd hr (splitOnChar_ne_nil sep rest)
    | cons r rs => simp [splitOnChar, hr]
  | cons c cs ih =>
    have hc : ¬ (c = sep) := fun hcc => h (hcc ▸ List.mem_cons_self c cs)
    have hcs : sep ∉ cs := fun hm => h (List.mem_cons_of_mem c hm)
    simp only [List.cons_append]
    rw [show splitOnChar sep (c :: (cs ++ sep :: rest))
          = match splitOnChar sep (cs ++ sep :: rest) with
            | [] => [[c]]
            | r :: rs => if c = sep then [] :: r :: rs else (c :: r) :: rs
        from rfl]
    rw [ih hcs]
    simp [hc]

theorem joinWith_splitOnChar (sep : Char) (s : Str) :
    joinWith sep (splitOnChar sep s) = s := by
  induction s with
  | nil => rfl
  | cons c cs ih =>
    unfold splitOnChar
    cases hr : splitOnChar sep cs with
    | nil => exact absurd hr (splitOnChar_ne_nil sep cs)
    | cons r rs =>
      rw [hr] at ih
      by_cases hc : c = sep
      · subst hc
        simp only [if_pos rfl]
        show joinWith c ([] :: r :: rs) = c :: cs
        rw [joinWith]
        simpa using ih
      · simp only [if_neg hc]
        cases rs with
        | nil =>
          show joinWith sep [c :: r] = c :: cs
          rw [joinWith]
          simp only [joinWith] at ih
          simp [ih]
        | cons r2 rs2 =>
          show joinWith sep ((c :: r) :: r2 :: rs2) = c :: cs
          rw [joinWith]
          rw [joinWith] at ih
          simp [ih]

theorem trim_eq_self (l : Str) (h1 : ∀ c ∈ l.head?, isWS c = false)
    (h2 : ∀ c ∈ l.getLast?, isWS c = false) : trim l = l := by
  have hd : l.dropWhile isWS = l := by
    cases l with
    | nil => rfl
    | cons c cs =>
      rw [List.dropWhile_cons_of_neg]
      simp only [List.head?_cons, Option.mem_def, Option.some.injEq] at h1
      simp [h1 c rfl]
  rw [trim, hd]
  have ht : l.reverse.dropWhile isWS = l.reverse := by
    cases hrev : l.reverse with
    | nil => rfl
    | cons c cs =>
      rw [List.dropWhile_cons_of_neg]
      have : l.getLast? = some c := by
        rw [← List.head?_reverse, hrev, List.head?_cons]
      simp [h2 c this]
  rw [ht, List.reverse_reverse]

theorem stripQuotes_wrap (v : Str) : stripQuotes ('"' :: v ++ ['"']) = v := by
  simp [stripQuotes, List.getLast?_concat, List.dropLast_concat]

/- Well-formedness of a mapping entry for the local store format: the key
is non-empty, starts with a non-whitespace character other than `#`, and
contains neither `=` nor a newline; the value contains no newline. -/
def wellFormedEntry (p : Str × Str) : Bool :=
  match p.1 with
  | [] => false
  | c :: _ =>
    !isWS c && decide (c ≠ '#') && decide ('=' ∉ p.1) && decide ('\n' ∉ p.1) &&
      decide ('\n' ∉ p.2)

def wellFormedEnv (m : EnvVars) : Bool :=
  m.all wellFormedEntry && decide ((m.map Prod.fst).Nodup)

theorem trim_envLine (k v : Str) (hwf : wellFormedEntry (k, v) = true) :
    trim (envLine (k, v)) = envLine (k, v) := by
  match k with
  | [] => simp [wellFormedEntry] at hwf
  | c :: k' =>
    simp only [wellFormedEntry, Bool.and_eq_true, Bool.not_eq_true',
      decide_eq_true_eq] at hwf
    apply trim_eq_self
    · intro d hd
      simp only [envLine, List.cons_append, List.head?_cons, Option.mem_def,
        Option.some.injEq] at hd
      rw [← hd]
      exact hwf.1.1.1.1
    · intro d hd
      have : envLine (c :: k', v) = ((c :: k') ++ '=' :: '"' :: v) ++ ['"'] := by
        simp [envLine]
      rw [this, List.getLast?_concat] at hd
      simp only [Option.mem_def, Option.some.injEq] at hd
      rw [← hd]
      rfl

theorem processEnvLine_envLine (acc : EnvVars) (k v : Str)
    (hwf : wellFormedEntry (k, v) = true) :
    processEnvLine acc (envLine (k, v)) = assign acc k v := by
  match k with
  | [] => simp [wellFormedEntry] at hwf
  | c :: k' =>
    have hwf' := hwf
    simp only [wellFormedEntry, Bool.and_eq_true, Bool.not_eq_true',
      decide_eq_true_eq] at hwf'
    obtain ⟨⟨⟨⟨hcws, hchash⟩, heq⟩, hnlk⟩, hnlv⟩ := hwf'
    unfold processEnvLine
    rw [trim_envLine _ _ hwf]
    have hline : envLine (c :: k', v) = (c :: k') ++ '=' :: ('"' :: v ++ ['"']) := by
      simp [envLine]
    have hsplit : splitOnChar '=' (envLine (c :: k', v))
        = (c :: k') :: splitOnChar '=' ('"' :: v ++ ['"']) := by
      rw [hline]
      exact splitOnChar_append_cons '=' (c :: k') ('"' :: v ++ ['"']) heq
    have hne : ¬ (envLine (c :: k', v) = [] ∨ (envLine (c :: k', v)).head? = some '#') := by
      rintro (h | h)
      · simp [envLine] at h
      · simp only [envLine, List.cons_append, List.head?_cons,
          Option.some.injEq] at h
        exact hchash h
    rw [if_neg hne, hsplit]
    have hjoin : joinWith '=' (splitOnChar '=' ('"' :: v ++ ['"']))
        = '"' :: v ++ ['"'] := joinWith_splitOnChar '=' ('"' :: v ++ ['"'])
    have htrimv : trim ('"' :: v ++ ['"']) = '"' :: v ++ ['"'] := by
      apply trim_eq_self
      · intro d hd
        simp only [List.cons_append, List.head?_cons, Option.mem_def,
          Option.some.injEq] at hd
        rw [← hd]
        rfl
      · intro d hd
        have : ('"' :: v ++ ['"'] : Str) = ('"' :: v) ++ ['"'] := by simp
        rw [this, List.getLast?_concat] at hd
        simp only [Option.mem_def, Option.some.injEq] at hd
        rw [← hd]
        rfl
    have hv : stripQuotes (trim (joinWith '=' (splitOnChar '=' ('"' :: v ++ ['"'])))) = v := by
      rw [hjoin, htrimv, stripQuotes_wrap]
    show (if (c :: k') = ([] : Str) then acc
        else assign acc (c :: k')
          (stripQuotes (trim (joinWith '=' (splitOnChar '=' ('"' :: v ++ ['"']))))))
      = assign acc (c :: k') v
    rw [hv, if_neg (by simp)]

theorem newline_not_mem_envLine (k v : Str) (hwf : wellFormedEntry (k, v) = true) :
    '\n' ∉ envLine (k, v) := by
  match k with
  | [] => simp [wellFormedEntry] at hwf
  | c :: k' =>
    simp only [wellFormedEntry, Bool.and_eq_true, Bool.not_eq_true',
      decide_eq_true_eq] at hwf
    obtain ⟨⟨⟨⟨hcws, hchash⟩, heq⟩, hnlk⟩, hnlv⟩ := hwf
    intro hmem
    simp only [envLine, List.mem_append, List.mem_cons, List.mem_singleton] at hmem
    rcases hmem with ((h | h) | h | h | h) | h | h
    · exact hnlk (List.mem_cons.mpr (Or.inl h))
    · exact hnlk (List.mem_cons.mpr (Or.inr h))
    · exact absurd h (by decide)
    · exact absurd h (by decide)
    · exact hnlv h
    · exact absurd h (by decide)
    · simp at h

theorem splitOnChar_joinWith_newline (ls : List Str) (hne : ls ≠ [])
    (h : ∀ l ∈ ls, '\n' ∉ l) :
    splitOnChar '\n' (joinWith '\n' ls ++ ['\n']) = ls ++ [[]] := by
  induction ls with
  | nil => exact absurd rfl hne
  | cons l ls ih =>
    cases ls with
    | nil =>
      show splitOnChar '\n' (l ++ '\n' :: []) = [l, []]
      rw [splitOnChar_append_cons '\n' l [] (h l (List.mem_cons_self l []))]
      rfl
    | cons l2 ls2 =>
      have hstep : joinWith '\n' (l :: l2 :: ls2) ++ ['\n']
          = l ++ '\n' :: (joinWith '\n' (l2 :: ls2) ++ ['\n']) := by
        rw [joinWith]
        simp
      rw [hstep, splitOnChar_append_cons '\n' l _ (h l (List.mem_cons_self l _)),
        ih (by simp) (fun x hx => h x (List.mem_cons_of_mem l hx))]
      rfl

theorem processEnvLine_empty (acc : EnvVars) : processEnvLine acc [] = acc := rfl

theorem foldl_processEnvLine_append (m : EnvVars) :
    ∀ acc : EnvVars, (∀ p ∈ m, wellFormedEntry p = true) →
    ((m.map Prod.fst).Nodup) →
    (∀ kk ∈ m.map Prod.fst, acc.any (fun p => p.1 = kk) = false) →
    (m.map envLine).foldl processEnvLine acc = acc ++ m := by
  induction m with
  | nil => intro acc _ _ _; simp
  | cons p ps ih =>
    intro acc hwf hnd hfresh
    have hfp : acc.any (fun q => q.1 = p.1) = false :=
      hfresh p.1 (by simp)
    have hstep : processEnvLine acc (envLine p) = acc ++ [p] := by
      rw [show envLine p = envLine (p.1, p.2) from rfl,
        processEnvLine_envLine acc p.1 p.2 (by simpa using hwf p (by simp)),
        assign_of_fresh acc p.1 p.2 hfp]
    simp only [List.map_cons, List.foldl_cons, hstep]
    rw [ih (acc ++ [p]) (fun q hq => hwf q (List.mem_cons_of_mem p hq))
      (by simpa using hnd.of_cons)
      ?_]
    · simp
    · intro kk hkk
      have hkkp : ¬ (p.1 = kk) := by
        intro hkp
        rw [List.map_cons] at hnd
        rw [← hkp] at hkk
        exact (List.nodup_cons.mp hnd).1 hkk
      have hacc : acc.any (fun q => q.1 = kk) = false :=
        hfresh kk (List.mem_cons_of_mem _ hkk)
      simp [List.any_append, hacc, hkkp]

theorem parse_write_roundtrip_aux (m : EnvVars) (hwf : ∀ p ∈ m, wellFormedEntry p = true)
    (hnd : (m.map Prod.fst).Nodup) :
    parseEnvFile (writeEnvContent m) = m := by
  cases m with
  | nil => rfl
  | cons p ps =>
    unfold parseEnvFile writeEnvContent
    rw [splitOnChar_joinWith_newline ((p :: ps).map envLine) (by simp)
      (by
        intro l hl
        rw [List.mem_map] at hl
        obtain ⟨q, hq, rfl⟩ := hl
        exact newline_not_mem_envLine q.1 q.2 (by simpa using hwf q hq))]
    rw [List.foldl_append]
    rw [foldl_processEnvLine_append (p :: ps) [] hwf hnd (by intro kk _; rfl)]
    simp [processEnvLine_empty]

/-- C6 counterexample: the round-trip claim fails as stated.  For the
mapping `{A: "x\ny"}` (a value containing a newline), writing the local
store format and parsing it back yields `{A: "x", "y\"": ""}`, not the
original mapping. -/
theorem writeEnv_parseEnv_not_inverse :
    parseEnvFile (writeEnvContent [(str "A", str "x\ny")])
      ≠ [(str "A", str "x\ny")] := by decide

/-- C6 (amended): for every mapping whose keys are non-empty, start with a
non-whitespace character other than `#`, and contain no `=` and no newline,
whose values contain no newline, and whose keys are distinct (as in any JS
object), writing the mapping to the local store format (`KEY="value"`
lines) and parsing the result back yields the original mapping. -/
theorem writeEnv_parseEnv_roundtrip (m : EnvVars) (h : wellFormedEnv m = true) :
    parseEnvFile (writeEnvContent m) = m := by
  simp only [wellFormedEnv, Bool.and_eq_true, List.all_eq_true, decide_eq_true_eq] at h
  exact parse_write_roundtrip_aux m h.1 h.2

/-- C6 witness: the amended round-trip theorem applied to the concrete
mapping `{API_KEY: "abc", B_2: "x=1"}`. -/
theorem writeEnv_parseEnv_roundtrip_witness :
    wellFormedEnv [(str "API_KEY", str "abc"), (str "B_2", str "x=1")] = true ∧
    parseEnvFile (writeEnvContent [(str "API_KEY", str "abc"), (str "B_2", str "x=1")])
      = [(str "API_KEY", str "abc"), (str "B_2", str "x=1")] :=
  ⟨by decide,
   writeEnv_parseEnv_roundtrip [(str "API_KEY", str "abc"), (str "B_2", str "x=1")]
     (by decide)⟩

theorem presentNonEmpty_eq_truthy (o : Option Str) : presentNonEmpty o = truthy o := by
  cases o with
  | none => rfl
  | some s => cases s <;> rfl

theorem diffsForKey_eq_spec (L R : EnvVars) (env : Environment) (k : Str) :
    diffsForKey L R env k
      = specCandidateActions env k (lookupVar L k) (lookupVar R k) := by
  unfold diffsForKey specCandidateActions
  simp only [presentNonEmpty_eq_truthy]
  cases h1 : truthy (lookupVar L k) <;> cases h2 : truthy (lookupVar R k)
  all_goals simp [h1, h2]
  all_goals try split_ifs
  all_goals simp_all

/-- C1: `calculateDiffs` emits, for each key of the union of both key sets
(a value counting as present only if non-empty), exactly the candidate
actions of the spec's classification table (`specCandidateActions`): add
and remove-from-local for local-only keys; pull and remove-from-remote for
remote-only keys unless excluded, in which case nothing; nothing for keys
equal on both sides with known values; update when the remote value is
opaque or the known values differ.  Moreover no emitted record carries
action `pull` or `remove_from_vercel` for a key in the exclusion set. -/
theorem calculateDiffs_matches_spec_table :
    (∀ (L R : EnvVars) (env : Environment),
      calculateDiffs L R env
        = (allKeysOf L R).flatMap
            (fun k => specCandidateActions env k (lookupVar L k) (lookupVar R k))) ∧
    (∀ (L R : EnvVars) (env : Environment) (d : EnvDiff),
      d ∈ calculateDiffs L R env → isExcludedFromPull d.key env = true →
      d.action ≠ SyncAction.pull ∧ d.action ≠ SyncAction.remove_from_vercel) := by
  constructor
  · intro L R env
    unfold calculateDiffs
    congr 1
    funext k
    exact diffsForKey_eq_spec L R env k
  · intro L R env d hd hexcl
    unfold calculateDiffs at hd
    rw [List.mem_flatMap] at hd
    obtain ⟨k, _, hdk⟩ := hd
    rw [diffsForKey_eq_spec] at hdk
    unfold specCandidateActions at hdk
    split_ifs at hdk with h1 h2 h3 h4 h5 h6
    · simp only [List.mem_cons, List.not_mem_nil, or_false] at hdk
      rcases hdk with rfl | rfl
      · exact ⟨by simp, by simp⟩
      · exact ⟨by simp, by simp⟩
    · simp at hdk
    · simp only [List.mem_cons, List.not_mem_nil, or_false] at hdk
      rcases hdk with rfl | rfl
      · exact absurd hexcl h3
      · exact absurd hexcl h3
    · simp only [List.mem_cons, List.not_mem_nil, or_false] at hdk
      rcases hdk with rfl
      exact ⟨by simp, by simp⟩
    · simp at hdk
    · simp only [List.mem_cons, List.not_mem_nil, or_false] at hdk
      rcases hdk with rfl
      exact ⟨by simp, by simp⟩
    · simp at hdk

/-- C1 witness: for local `{VERCEL_URL: "v"}` and empty remote in
development, the key `VERCEL_URL` is excluded and the add record it
produces is neither a pull nor a remote removal. -/
theorem calculateDiffs_matches_spec_table_witness :
    ({ action := SyncAction.add, key := str "VERCEL_URL",
       localValue := some (str "v"), vercelValue := none,
       environment := Environment.development : EnvDiff }
        ∈ calculateDiffs [(str "VERCEL_URL", str "v")] [] .development) ∧
    isExcludedFromPull (str "VERCEL_URL") .development = true ∧
    ({ action := SyncAction.add, key := str "VERCEL_URL",
       localValue := some (str "v"), vercelValue := none,
       environment := Environment.development : EnvDiff }.action ≠ SyncAction.pull ∧
     { action := SyncAction.add, key := str "VERCEL_URL",
       localValue := some (str "v"), vercelValue := none,
       environment := Environment.development : EnvDiff }.action
        ≠ SyncAction.remove_from_vercel) :=
  ⟨by decide, by decide,
   calculateDiffs_matches_spec_table.2 [(str "VERCEL_URL", str "v")] [] .development
     _ (by decide) (by decide)⟩

theorem foldl_assign_const_val (ns : List Str) (val : Str) :
    ∀ acc : EnvVars, (∀ p ∈ acc, p.2 = val) →
    ∀ p ∈ ns.foldl (fun a n => assign a n val) acc, p.2 = val := by
  induction ns with
  | nil => intro acc hacc; exact hacc
  | cons n ns ih =>
    intro acc hacc
    refine ih (assign acc n val) ?_
    intro p hp
    unfold assign at hp
    split_ifs at hp with h
    · rw [List.mem_map] at hp
      obtain ⟨q, hq, rfl⟩ := hp
      by_cases hq1 : q.1 = n
      · simp [hq1]
      · simp only [if_neg hq1]
        exact hacc q hq
    · rcases List.mem_append.1 hp with hm | hm
      · exact hacc p hm
      · rcases List.mem_singleton.1 hm with rfl
        rfl

/-- C7: `getVercelEnvVars` attempts the full-value pull first and parses
its result when it succeeds; on pull failure it falls back to the
names-only listing and maps every extracted name to the opaque
`[ENCRYPTED]` marker; and when both the pull and the listing fail it
returns the empty mapping (a plain value, not an error — the caller
continues with an empty remote side). -/
theorem getVercelEnvVars_fallback_chain :
    (∀ (w : RemoteFetchWorld) (tempContent : Str),
      w.pullOk = true → w.tempFileContent = some tempContent →
      getVercelEnvVars w = parseEnvFile tempContent) ∧
    (∀ (w : RemoteFetchWorld) (listResult : Str),
      (w.pullOk = false ∨ w.tempFileContent = none) → w.listOutput = some listResult →
      getVercelEnvVars w
          = (extractVarNames listResult).foldl (fun acc n => assign acc n ENCRYPTED) [] ∧
        ∀ p ∈ getVercelEnvVars w, p.2 = ENCRYPTED) ∧
    (∀ w : RemoteFetchWorld,
      (w.pullOk = false ∨ w.tempFileContent = none) → w.listOutput = none →
      getVercelEnvVars w = []) := by
  refine ⟨?_, ?_, ?_⟩
  · rintro ⟨po, tc, lo⟩ tempContent hpo htc
    simp only at hpo htc
    subst hpo htc
    rfl
  · rintro ⟨po, tc, lo⟩ listResult hfail hlo
    simp only at hfail hlo
    subst hlo
    have hget : getVercelEnvVars ⟨po, tc, some listResult⟩
        = (extractVarNames listResult).foldl (fun acc n => assign acc n ENCRYPTED) [] := by
      rcases hfail with h | h
      · subst h; cases tc <;> rfl
      · subst h; cases po <;> rfl
    refine ⟨hget, ?_⟩
    rw [hget]
    exact foldl_assign_const_val (extractVarNames listResult) ENCRYPTED [] (by simp)
  · rintro ⟨po, tc, lo⟩ hfail hlo
    simp only at hfail hlo
    subst hlo
    rcases hfail with h | h
    · subst h; cases tc <;> rfl
    · subst h; cases po <;> rfl

/-- C7 witness: with the pull failing and the listing returning one line
`MY_VAR encrypted production`, the fallback produces `MY_VAR` mapped to
the opaque marker. -/
theorem getVercelEnvVars_fallback_chain_witness :
    ((false : Bool) = false ∨
      (RemoteFetchWorld.mk false none (some (str "MY_VAR  encrypted  production"))).tempFileContent
        = none) ∧
    (RemoteFetchWorld.mk false none (some (str "MY_VAR  encrypted  production"))).listOutput
      = some (str "MY_VAR  encrypted  production") ∧
    (getVercelEnvVars (RemoteFetchWorld.mk false none (some (str "MY_VAR  encrypted  production")))
        = (extractVarNames (str "MY_VAR  encrypted  production")).foldl
            (fun acc n => assign acc n ENCRYPTED) [] ∧
      ∀ p ∈ getVercelEnvVars
          (RemoteFetchWorld.mk false none (some (str "MY_VAR  encrypted  production"))),
        p.2 = ENCRYPTED) :=
  ⟨Or.inl rfl, rfl,
   getVercelEnvVars_fallback_chain.2.1
     (RemoteFetchWorld.mk false none (some (str "MY_VAR  encrypted  production")))
     (str "MY_VAR  encrypted  production") (Or.inl rfl) rfl⟩

/- A concrete oracle world in which every remote command succeeds; used by
the concrete instantiations below. -/
def wTrue : ApplyWorld := { cmdOutcomes := fun _ => true, pullContent := none, localVars := [] }

theorem applyDiff_gate_passes (mode : Mode) (confirms : List Bool)
    (hgate : mode = Mode.auto ∨ confirms.head?.getD false = true) :
    ¬ (mode = Mode.interactive ∧ confirms.head?.getD false = false) := by
  rcases hgate with h | h <;> simp [h]

/-- C2: for an add record with a non-empty local value, `applyDiff` first
writes the key to the remote with the local value; when that first add
fails it removes the existing remote entry and retries the add exactly
once (command trace `add, rm, add`), and it succeeds if and only if the
first add succeeds, or the fallback remove and the single retried add both
succeed. -/
theorem applyDiff_add_retries_once (k v : Str) (vv : Option Str) (env : Environment)
    (mode : Mode) (confirms : List Bool) (w : ApplyWorld) (hv : v ≠ [])
    (hgate : mode = Mode.auto ∨ confirms.head?.getD false = true) :
    (applyDiff ⟨.add, k, some v, vv, env⟩ mode confirms w).success
        = (w.cmdOutcomes 0 || (w.cmdOutcomes 1 && w.cmdOutcomes 2)) ∧
    (applyDiff ⟨.add, k, some v, vv, env⟩ mode confirms w).remoteOps
        = (if w.cmdOutcomes 0 then [RemoteOp.add k v]
           else if w.cmdOutcomes 1 then [RemoteOp.add k v, RemoteOp.rm k, RemoteOp.add k v]
           else [RemoteOp.add k v, RemoteOp.rm k]) ∧
    (applyDiff ⟨.add, k, some v, vv, env⟩ mode confirms w).writtenLocal = none := by
  have hg := applyDiff_gate_passes mode confirms hgate
  cases h0 : w.cmdOutcomes 0 <;> cases h1 : w.cmdOutcomes 1 <;>
    cases h2 : w.cmdOutcomes 2 <;> simp [applyDiff, hg, hv, h0, h1, h2]

/-- C2 witness: the add theorem at key `X`, value `v`, auto mode, in a
world where every remote command succeeds. -/
theorem applyDiff_add_retries_once_witness :
    (str "v" ≠ ([] : Str)) ∧
    (Mode.auto = Mode.auto ∨ (([] : List Bool).head?.getD false) = true) ∧
    ((applyDiff ⟨.add, str "X", some (str "v"), none, .development⟩ .auto [] wTrue).success
        = (wTrue.cmdOutcomes 0 || (wTrue.cmdOutcomes 1 && wTrue.cmdOutcomes 2)) ∧
     (applyDiff ⟨.add, str "X", some (str "v"), none, .development⟩ .auto [] wTrue).remoteOps
        = (if wTrue.cmdOutcomes 0 then [RemoteOp.add (str "X") (str "v")]
           else if wTrue.cmdOutcomes 1 then
             [RemoteOp.add (str "X") (str "v"), RemoteOp.rm (str "X"),
              RemoteOp.add (str "X") (str "v")]
           else [RemoteOp.add (str "X") (str "v"), RemoteOp.rm (str "X")]) ∧
     (applyDiff ⟨.add, str "X", some (str "v"), none, .development⟩ .auto [] wTrue).writtenLocal
        = none) :=
  ⟨by decide, Or.inl rfl,
   applyDiff_add_retries_once (str "X") (str "v") none .development .auto [] wTrue
     (by decide) (Or.inl rfl)⟩

/-- C3: for an update record with a non-empty local value, `applyDiff`
performs a remote removal followed, when the removal succeeded, by a
remote re-add with the local value, and reports success exactly when both
steps succeed; if the removal succeeds but the re-add fails the result is
failure. -/
theorem applyDiff_update_remove_then_add (k v : Str) (vv : Option Str) (env : Environment)
    (mode : Mode) (confirms : List Bool) (w : ApplyWorld) (hv : v ≠ [])
    (hgate : mode = Mode.auto ∨ confirms.head?.getD false = true) :
    (applyDiff ⟨.update, k, some v, vv, env⟩ mode confirms w).success
        = (w.cmdOutcomes 0 && w.cmdOutcomes 1) ∧
    (applyDiff ⟨.update, k, some v, vv, env⟩ mode confirms w).remoteOps
        = RemoteOp.rm k :: (if w.cmdOutcomes 0 then [RemoteOp.add k v] else []) ∧
    (applyDiff ⟨.update, k, some v, vv, env⟩ mode confirms w).writtenLocal = none := by
  have hg := applyDiff_gate_passes mode confirms hgate
  cases h0 : w.cmdOutcomes 0 <;> cases h1 : w.cmdOutcomes 1 <;>
    simp [applyDiff, hg, hv, h0, h1]

/-- C3 witness: the update theorem at key `TOKEN`, value `new`, auto mode,
in a world where every remote command succeeds. -/
theorem applyDiff_update_remove_then_add_witness :
    (str "new" ≠ ([] : Str)) ∧
    (Mode.auto = Mode.auto ∨ (([] : List Bool).head?.getD false) = true) ∧
    ((applyDiff ⟨.update, str "TOKEN", some (str "new"), some (str "old"), .production⟩
          .auto [] wTrue).success
        = (wTrue.cmdOutcomes 0 && wTrue.cmdOutcomes 1) ∧
     (applyDiff ⟨.update, str "TOKEN", some (str "new"), some (str "old"), .production⟩
          .auto [] wTrue).remoteOps
        = RemoteOp.rm (str "TOKEN")
            :: (if wTrue.cmdOutcomes 0 then [RemoteOp.add (str "TOKEN") (str "new")] else []) ∧
     (applyDiff ⟨.update, str "TOKEN", some (str "new"), some (str "old"), .production⟩
          .auto [] wTrue).writtenLocal = none) :=
  ⟨by decide, Or.inl rfl,
   applyDiff_update_remove_then_add (str "TOKEN") (str "new") (some (str "old")) .production
     .auto [] wTrue (by decide) (Or.inl rfl)⟩

/-- C10: for an add or update record whose local value is undefined or the
empty string, `applyDiff` performs no remote command and no local write at
all and returns failure, in every mode. -/
theorem applyDiff_empty_value_no_mutation (a : SyncAction) (k : Str) (lv vv : Option Str)
    (env : Environment) (mode : Mode) (confirms : List Bool) (w : ApplyWorld)
    (ha : a = SyncAction.add ∨ a = SyncAction.update)
    (hlv : lv = none ∨ lv = some []) :
    applyDiff ⟨a, k, lv, vv, env⟩ mode confirms w
      = { success := false, remoteOps := [], writtenLocal := none } := by
  rcases ha with rfl | rfl <;> rcases hlv with rfl | rfl <;>
    simp [applyDiff, skipResult]

/-- C10 witness: an add record with an empty local value in auto mode with
all remote commands succeeding still mutates nothing and fails. -/
theorem applyDiff_empty_value_no_mutation_witness :
    (SyncAction.add = SyncAction.add ∨ SyncAction.add = SyncAction.update) ∧
    ((some ([] : Str)) = none ∨ (some ([] : Str)) = some ([] : Str)) ∧
    applyDiff ⟨.add, str "X", some [], none, .development⟩ .auto [] wTrue
      = { success := false, remoteOps := [], writtenLocal := none } :=
  ⟨Or.inl rfl, Or.inr rfl,
   applyDiff_empty_value_no_mutation SyncAction.add (str "X") (some []) none .development
     .auto [] wTrue (Or.inl rfl) (Or.inr rfl)⟩

/-- C9: applying a pull record with a known (non-empty, non-opaque) remote
value writes the freshly read local mapping with exactly that key assigned
and issues no remote command; applying a remove-from-local record writes
the mapping with exactly that key deleted and issues no remote command.
In both cases every other key's value in the written mapping equals its
value in the mapping that was read. -/
theorem applyDiff_local_frame (k v : Str) (lv vv : Option Str) (env : Environment)
    (mode : Mode) (confirms : List Bool) (w : ApplyWorld)
    (hgate : mode = Mode.auto ∨ confirms.head?.getD false = true)
    (hv : v ≠ []) (henc : v ≠ ENCRYPTED) :
    (applyDiff ⟨.pull, k, lv, some v, env⟩ mode confirms w
        = { success := true, remoteOps := [],
            writtenLocal := some (assign w.localVars k v) } ∧
      lookupVar (assign w.localVars k v) k = some v ∧
      (∀ k', k' ≠ k → lookupVar (assign w.localVars k v) k' = lookupVar w.localVars k')) ∧
    (applyDiff ⟨.remove_from_local, k, lv, vv, env⟩ mode confirms w
        = { success := true, remoteOps := [],
            writtenLocal := some (removeKey w.localVars k) } ∧
      lookupVar (removeKey w.localVars k) k = none ∧
      (∀ k', k' ≠ k → lookupVar (removeKey w.localVars k) k' = lookupVar w.localVars k')) := by
  have hg := applyDiff_gate_passes mode confirms hgate
  refine ⟨⟨?_, lookupVar_assign_self w.localVars k v,
      fun k' hk' => lookupVar_assign_ne w.localVars k v k' hk'⟩,
    ⟨?_, lookupVar_removeKey_self w.localVars k,
      fun k' hk' => lookupVar_removeKey_ne w.localVars k k' hk'⟩⟩
  · simp [applyDiff, hg, hv, henc]
  · simp [applyDiff, hg]

/-- C9 witness: the frame theorem at key `B`, value `w`, auto mode, with
local mapping `{A: "1", B: "2"}`. -/
theorem applyDiff_local_frame_witness :
    (Mode.auto = Mode.auto ∨ (([] : List Bool).head?.getD false) = true) ∧
    (str "w" ≠ ([] : Str)) ∧ (str "w" ≠ ENCRYPTED) ∧
    ((applyDiff ⟨.pull, str "B", none, some (str "w"), .development⟩ .auto []
          ⟨fun _ => true, none, [(str "A", str "1"), (str "B", str "2")]⟩
        = { success := true, remoteOps := [],
            writtenLocal := some (assign [(str "A", str "1"), (str "B", str "2")]
              (str "B") (str "w")) } ∧
      lookupVar (assign [(str "A", str "1"), (str "B", str "2")] (str "B") (str "w")) (str "B")
        = some (str "w") ∧
      (∀ k', k' ≠ str "B" →
        lookupVar (assign [(str "A", str "1"), (str "B", str "2")] (str "B") (str "w")) k'
          = lookupVar [(str "A", str "1"), (str "B", str "2")] k')) ∧
    (applyDiff ⟨.remove_from_local, str "B", none, none, .development⟩ .auto []
          ⟨fun _ => true, none, [(str "A", str "1"), (str "B", str "2")]⟩
        = { success := true, remoteOps := [],
            writtenLocal := some (removeKey [(str "A", str "1"), (str "B", str "2")]
              (str "B")) } ∧
      lookupVar (removeKey [(str "A", str "1"), (str "B", str "2")] (str "B")) (str "B")
        = none ∧
      (∀ k', k' ≠ str "B" →
        lookupVar (removeKey [(str "A", str "1"), (str "B", str "2")] (str "B")) k'
          = lookupVar [(str "A", str "1"), (str "B", str "2")] k'))) :=
  ⟨Or.inl rfl, by decide, by decide,
   applyDiff_local_frame (str "B") (str "w") none none .development .auto []
     ⟨fun _ => true, none, [(str "A", str "1"), (str "B", str "2")]⟩
     (Or.inl rfl) (by decide) (by decide)⟩

/-- C5: the code's behaviour at the failing input.  In interactive mode,
when the operator declines the confirmation for a record (first answer
`false`), `applyDiff` skips the record — it returns failure having issued
no remote command and no local write, and never consults the remaining
answers (here a subsequent `true`), contradicting the documented
return-to-action-selection loop. -/
theorem interactive_decline_skips_record :
    applyDiff ⟨.add, str "X", some (str "v"), none, .development⟩ .interactive
        [false, true] wTrue
      = { success := false, remoteOps := [], writtenLocal := none } := rfl

/-- C4 counterexample: a removal-type record is not skipped in auto mode.
For a `remove_from_vercel` record, the auto-mode batch selection keeps it,
and `applyDiff` in auto mode executes the remote removal (command trace
`rm A`) and reports success — so a removal-type action is executed in auto
mode, contradicting the claim. -/
theorem autoMode_executes_removal_counterexample :
    autoSelectDiffs [⟨.remove_from_vercel, str "A", none, some (str "x"), .development⟩] true
        = [⟨.remove_from_vercel, str "A", none, some (str "x"), .development⟩] ∧
    (applyDiff ⟨.remove_from_vercel, str "A", none, some (str "x"), .development⟩
        .auto [] wTrue).remoteOps = [RemoteOp.rm (str "A")] ∧
    (applyDiff ⟨.remove_from_vercel, str "A", none, some (str "x"), .development⟩
        .auto [] wTrue).success = true :=
  ⟨rfl, rfl, rfl⟩

/-- C4 (amended): in auto mode a single confirmation gates the whole batch
for the environment — declining it selects nothing and agreeing selects
every computed record — and every selected record is applied without any
per-record confirmation, including removal-type records: a
`remove_from_vercel` record executes the remote removal and a
`remove_from_local` record rewrites the local store with the key deleted.
Removal-type records are not skipped in auto mode. -/
theorem autoMode_batch_gate_and_removals :
    (∀ diffs : List EnvDiff,
      autoSelectDiffs diffs false = [] ∧ autoSelectDiffs diffs true = diffs) ∧
    (∀ (d : EnvDiff) (confirms : List Bool) (w : ApplyWorld),
      (d.action = SyncAction.remove_from_vercel →
        applyDiff d .auto confirms w
          = { success := w.cmdOutcomes 0, remoteOps := [RemoteOp.rm d.key],
              writtenLocal := none }) ∧
      (d.action = SyncAction.remove_from_local →
        applyDiff d .auto confirms w
          = { success := true, remoteOps := [],
              writtenLocal := some (removeKey w.localVars d.key) })) := by
  refine ⟨fun diffs => ⟨rfl, rfl⟩, fun d confirms w => ⟨fun h => ?_, fun h => ?_⟩⟩
  · simp [applyDiff, h]
  · simp [applyDiff, h]

/-- C4 witness: the amended theorem applied to a concrete
`remove_from_vercel` record in a world where the removal succeeds. -/
theorem autoMode_batch_gate_and_removals_witness :
    ((⟨.remove_from_vercel, str "A", none, some (str "x"), .development⟩ : EnvDiff).action
        = SyncAction.remove_from_vercel) ∧
    applyDiff ⟨.remove_from_vercel, str "A", none, some (str "x"), .development⟩
        .auto [] wTrue
      = { success := wTrue.cmdOutcomes 0,
          remoteOps := [RemoteOp.rm
            (⟨.remove_from_vercel, str "A", none, some (str "x"), .development⟩ : EnvDiff).key],
          writtenLocal := none } :=
  ⟨rfl,
   (autoMode_batch_gate_and_removals.2
     ⟨.remove_from_vercel, str "A", none, some (str "x"), .development⟩ [] wTrue).1 rfl⟩

/-- C8: in the deletion workflow (without force), declining the final
destructive confirmation returns the operator to the variable multi-select
— the loop continues on the rest of the input script exactly as if
selection were starting again — and the workflow ends cancelled (exiting
without deleting) only when some round's selection was a cancel or the
explicit abort sentinel, or its confirmation was a cancel. -/
theorem deleteEnvsLoop_decline_reselects :
    (∀ (vars : List Str) (rest : List DelRound),
      deleteEnvsLoop false ({ sel := .chosen vars, conf := .declined } :: rest)
        = deleteEnvsLoop false rest) ∧
    (∀ script : List DelRound,
      deleteEnvsLoop false script = some DeleteOutcome.cancelled →
      ∃ r ∈ script, r.sel = SelectOutcome.cancelled ∨ r.sel = SelectOutcome.exitChoice ∨
        (∃ vars, r.sel = SelectOutcome.chosen vars ∧ r.conf = ConfirmOutcome.cancelled)) := by
  constructor
  · intro vars rest
    rfl
  · intro script
    induction script with
    | nil => intro h; simp [deleteEnvsLoop] at h
    | cons r rest ih =>
      intro h
      match hsel : r.sel with
      | .cancelled => exact ⟨r, by simp, Or.inl hsel⟩
      | .exitChoice => exact ⟨r, by simp, Or.inr (Or.inl hsel)⟩
      | .noneSelected =>
        rw [deleteEnvsLoop, hsel] at h
        obtain ⟨q, hq, hcase⟩ := ih h
        exact ⟨q, List.mem_cons_of_mem r hq, hcase⟩
      | .chosen vars =>
        rw [deleteEnvsLoop, hsel] at h
        simp only [if_neg (Bool.false_ne_true)] at h
        match hconf : r.conf with
        | .cancelled => exact ⟨r, by simp, Or.inr (Or.inr ⟨vars, hsel, hconf⟩)⟩
        | .declined =>
          rw [hconf] at h
          obtain ⟨q, hq, hcase⟩ := ih h
          exact ⟨q, List.mem_cons_of_mem r hq, hcase⟩
        | .confirmed dl =>
          rw [hconf] at h
          simp at h

/-- C8 witness: the cancellation characterisation applied to the script
that immediately picks the abort sentinel. -/
theorem deleteEnvsLoop_decline_reselects_witness :
    deleteEnvsLoop false [{ sel := SelectOutcome.exitChoice, conf := ConfirmOutcome.declined }]
        = some DeleteOutcome.cancelled ∧
    (∃ r ∈ [({ sel := SelectOutcome.exitChoice, conf := ConfirmOutcome.declined } : DelRound)],
      r.sel = SelectOutcome.cancelled ∨ r.sel = SelectOutcome.exitChoice ∨
        (∃ vars, r.sel = SelectOutcome.chosen vars ∧ r.conf = ConfirmOutcome.cancelled)) :=
  ⟨rfl,
   deleteEnvsLoop_decline_reselects.2
     [{ sel := SelectOutcome.exitChoice, conf := ConfirmOutcome.declined }] rfl⟩
